import Mathlib

/-!
Shallow embedding of the AlgoTrading time-series analytics engine
(`FinancialAnalysis/analysis/analyzing.py`, `smoothing.py`,
`forecasting.py`) together with proofs about its specified behaviour.

Conventions of the embedding:
* `numpy` floating-point arithmetic is modelled by exact rational
  arithmetic (`ℚ`); a standard deviation, which needs a square root, lives
  in `ℝ`.
* An array entry that may be NaN is modelled as `Option ℚ`, `none` playing
  the role of NaN.
* A numpy / scipy exception or a failed `assert` is modelled by
  `Except String`.
* A 2-D array of shape (T, N) is a list of T rows, each a list of N
  rationals, exactly as numpy indexes `a[t, n]`.
-/

namespace AlgoTrading

/-- Mean of a list of rationals, modelling `np.mean` on a 1-D array.
For the empty list the model yields 0 (numpy would give NaN); all call
sites guard non-emptiness. -/
def listMean (l : List ℚ) : ℚ := l.sum / (l.length : ℚ)

/-- Population variance, the square of `np.std` on a 1-D array. -/
def popVar (l : List ℚ) : ℚ := (l.map (fun x => (x - listMean l) ^ 2)).sum / (l.length : ℚ)

/-- Population standard deviation, modelling `np.std` on a 1-D array. -/
noncomputable def popStd (l : List ℚ) : ℝ := Real.sqrt ((popVar l : ℚ) : ℝ)

/-- Column `a` of a row-major matrix, modelling `m[:, a]`. -/
def colOf (rows : List (List ℚ)) (a : ℕ) : List ℚ := rows.map (fun r => r.getD a 0)

/-- Translation of `Analyzer._compute_returns`:
`returns = np.diff(quotes, axis=0) / quotes[:-1]` with time along axis 0,
so row `t` of the result is `(quotes[t+1] - quotes[t]) / quotes[t]`
elementwise. -/
def computeReturns (quotes : List (List ℚ)) : List (List ℚ) :=
  List.zipWith (fun next cur => List.zipWith (fun qn qc => (qn - qc) / qc) next cur)
    quotes.tail quotes

/-- Translation of `(self.returns + 1).prod(axis=0)` from the `Analyzer`
constructor: per asset, the product over time of one plus the return. -/
def cumulativeReturns (returns : List (List ℚ)) : List ℚ :=
  (List.range (returns.headD []).length).map
    (fun a => ((colOf returns a).map (fun x => x + 1)).prod)

/-- Valid-mode discrete convolution, modelling
`scipy.signal.convolve(a, w, mode='valid')`: entry `k` is the dot product
of the slice `a[k : k + len w]` with the reversed kernel. -/
def convolveValid (a w : List ℚ) : List ℚ :=
  (List.range (a.length + 1 - w.length)).map
    (fun k => (List.zipWith (· * ·) ((a.drop k).take w.length) w.reverse).sum)

/-- Translation of `Smoother._running_window_smoothing`: valid-mode
convolution of the series with the constant averaging window
`(1 / length) * np.ones(length)`. -/
def runningWindowSmoothing (winLen : ℕ) (timeSeries : List ℚ) : List ℚ :=
  convolveValid timeSeries (List.replicate winLen ((1 : ℚ) / (winLen : ℚ)))

theorem length_computeReturns (Q : List (List ℚ)) :
    (computeReturns Q).length = Q.length - 1 := by
  simp [computeReturns]

theorem row_computeReturns (Q : List (List ℚ)) (t : ℕ) (ht : t + 1 < Q.length) :
    (computeReturns Q).getD t [] =
      List.zipWith (fun qn qc => (qn - qc) / qc) (Q.getD (t + 1) []) (Q.getD t []) := by
  have ht0 : t < Q.length := Nat.lt_of_succ_lt ht
  rw [List.getD_eq_getElem?_getD, List.getD_eq_getElem?_getD Q,
    List.getD_eq_getElem?_getD Q]
  simp only [computeReturns, List.getElem?_zipWith, List.getElem?_tail]
  rw [List.getElem?_eq_getElem ht, List.getElem?_eq_getElem ht0]
  rfl

theorem getElem_computeReturns (Q : List (List ℚ)) (t a : ℕ)
    (ht : t + 1 < Q.length) (ha : a < (Q.getD t []).length)
    (ha' : a < (Q.getD (t + 1) []).length) :
    ((computeReturns Q).getD t []).getD a 0 =
      ((Q.getD (t + 1) []).getD a 0 - (Q.getD t []).getD a 0) / (Q.getD t []).getD a 0 := by
  rw [row_computeReturns Q t ht]
  have haz : a < (List.zipWith (fun qn qc => (qn - qc) / qc)
      (Q.getD (t + 1) []) (Q.getD t [])).length := by
    rw [List.length_zipWith]; omega
  rw [List.getD_eq_getElem _ 0 haz, List.getElem_zipWith,
    List.getD_eq_getElem _ 0 ha', List.getD_eq_getElem _ 0 ha]

/-- C2: for every rectangular quote matrix Q of shape (T, N) with no NaNs
and no zero entries, the computed return matrix has shape (T-1, N) and
satisfies `returns[t][a] = (Q[t+1][a] - Q[t][a]) / Q[t][a]` for every
valid t and a. -/
theorem C2_return_matrix (Q : List (List ℚ)) (N : ℕ)
    (hrect : ∀ r ∈ Q, r.length = N)
    (_hnz : ∀ r ∈ Q, ∀ x ∈ r, x ≠ 0) :
    (computeReturns Q).length = Q.length - 1 ∧
    (∀ r ∈ computeReturns Q, r.length = N) ∧
    ∀ t a, t + 1 < Q.length → a < N →
      ((computeReturns Q).getD t []).getD a 0 =
        ((Q.getD (t + 1) []).getD a 0 - (Q.getD t []).getD a 0) /
          (Q.getD t []).getD a 0 := by
  refine ⟨length_computeReturns Q, ?_, ?_⟩
  · intro r hr
    simp only [computeReturns] at hr
    rw [List.mem_iff_getElem] at hr
    obtain ⟨i, hi, rfl⟩ := hr
    rw [List.getElem_zipWith]
    rw [List.length_zipWith] at hi
    have hi1 : i < Q.tail.length := lt_of_lt_of_le hi (min_le_left _ _)
    have hi2 : i < Q.length := lt_of_lt_of_le hi (min_le_right _ _)
    rw [List.length_zipWith, hrect _ (List.getElem_mem hi2),
      hrect _ (List.mem_of_mem_tail (List.getElem_mem hi1)), min_self]
  · intro t a ht ha
    have ht0 : t < Q.length := Nat.lt_of_succ_lt ht
    refine getElem_computeReturns Q t a ht ?_ ?_
    · rw [List.getD_eq_getElem Q [] ht0, hrect _ (List.getElem_mem ht0)]; exact ha
    · rw [List.getD_eq_getElem Q [] ht, hrect _ (List.getElem_mem ht)]; exact ha

theorem C2_return_matrix_witness :
    (computeReturns [[(1 : ℚ)], [2]]).length = 1 ∧
    (∀ r ∈ computeReturns [[(1 : ℚ)], [2]], r.length = 1) ∧
    ∀ t a, t + 1 < 2 → a < 1 →
      ((computeReturns [[(1 : ℚ)], [2]]).getD t []).getD a 0 =
        (([[(1 : ℚ)], [2]].getD (t + 1) []).getD a 0 -
            ([[(1 : ℚ)], [2]].getD t []).getD a 0) /
          ([[(1 : ℚ)], [2]].getD t []).getD a 0 :=
  C2_return_matrix [[(1 : ℚ)], [2]] 1 (by decide) (by decide)

theorem sum_zipWith_mul_replicate (xs : List ℚ) (n : ℕ) (c : ℚ) :
    (List.zipWith (· * ·) xs (List.replicate n c)).sum = (xs.take n).sum * c := by
  induction xs generalizing n with
  | nil => simp
  | cons x xs ih =>
    cases n with
    | zero => simp
    | succ m =>
      simp only [List.replicate_succ, List.zipWith_cons_cons, List.sum_cons,
        List.take_succ_cons, ih, add_mul]

theorem length_runningWindowSmoothing (winLen : ℕ) (ts : List ℚ) :
    (runningWindowSmoothing winLen ts).length = ts.length + 1 - winLen := by
  simp [runningWindowSmoothing, convolveValid]

/-- C8: for a series of length n ≥ L and an avg-method Smoother with window
length L ≥ 1, the smoothed output has length exactly n - L + 1 and entry k
is the mean of the window `ts[k : k + L]` (valid convolution, no padding). -/
theorem C8_running_window_mean (winLen : ℕ) (ts : List ℚ)
    (_hL : 1 ≤ winLen) (hn : winLen ≤ ts.length) :
    (runningWindowSmoothing winLen ts).length = ts.length - winLen + 1 ∧
    ∀ k, k < ts.length - winLen + 1 →
      (runningWindowSmoothing winLen ts).getD k 0 =
        ((ts.drop k).take winLen).sum / (winLen : ℚ) := by
  have hlen : ts.length + 1 - winLen = ts.length - winLen + 1 := by omega
  constructor
  · rw [length_runningWindowSmoothing, hlen]
  · intro k hk
    have hk' : k < ts.length + 1 - winLen := by omega
    have hk'' : k < (runningWindowSmoothing winLen ts).length := by
      rw [length_runningWindowSmoothing]; omega
    rw [List.getD_eq_getElem _ 0 hk'']
    simp only [runningWindowSmoothing, convolveValid, List.getElem_map,
      List.length_replicate, List.getElem_range, List.reverse_replicate]
    rw [sum_zipWith_mul_replicate]
    have htk : ((ts.drop k).take winLen).take winLen = (ts.drop k).take winLen := by
      simp
    rw [htk, one_div, mul_comm, ← div_eq_inv_mul]

theorem C8_running_window_mean_witness :
    (1 ≤ 3 ∧ 3 ≤ ([(1 : ℚ), 2, 3, 4, 5] : List ℚ).length) ∧
    runningWindowSmoothing 3 [(1 : ℚ), 2, 3, 4, 5] = [2, 3, 4] ∧
    ((runningWindowSmoothing 3 [(1 : ℚ), 2, 3, 4, 5]).length = 3 ∧
      ∀ k, k < 3 →
        (runningWindowSmoothing 3 [(1 : ℚ), 2, 3, 4, 5]).getD k 0 =
          (([(1 : ℚ), 2, 3, 4, 5].drop k).take 3).sum / (3 : ℚ)) :=
  ⟨⟨by decide, by decide⟩,
    by norm_num [runningWindowSmoothing, convolveValid, List.range_succ,
      List.replicate],
    C8_running_window_mean 3 [(1 : ℚ), 2, 3, 4, 5] (by decide) (by decide)⟩

/-- Index sort modelling `np.argsort` on a 1-D array: the indices
`0..n-1` reordered so that the corresponding values are ascending
(ties, which the claims exclude, are broken stably here where numpy
leaves the order unspecified). -/
def argsort (v : List ℚ) : List ℕ :=
  (List.range v.length).mergeSort (fun i j => decide (v.getD i 0 ≤ v.getD j 0))

/-- Translation of the rank-inversion loop shared by `top_k_performers`
and `bottom_k_performers`:
`indices = np.zeros_like(argsort); for i, ind in enumerate(argsort): indices[ind] = i`. -/
def writeRanks (p : List ℕ) : List ℕ :=
  p.enum.foldl (fun acc q => acc.set q.2 q.1) (List.replicate p.length 0)

/-- Translation of `Analyzer.top_k_performers`: invert the permutation
`np.argsort(cumulative_returns)[::-1]` (descending sort order). -/
def topKPerformers (cumReturns : List ℚ) : List ℕ :=
  writeRanks (argsort cumReturns).reverse

/-- Translation of `Analyzer.bottom_k_performers`: invert the permutation
`np.argsort(cumulative_returns)` (ascending sort order). -/
def bottomKPerformers (cumReturns : List ℚ) : List ℕ :=
  writeRanks (argsort cumReturns)

theorem foldl_set_length (l : List (ℕ × ℕ)) (acc : List ℕ) :
    (l.foldl (fun acc q => acc.set q.2 q.1) acc).length = acc.length := by
  induction l generalizing acc with
  | nil => rfl
  | cons q l ih => rw [List.foldl_cons, ih, List.length_set]

theorem foldl_set_not_mem (l : List (ℕ × ℕ)) (acc : List ℕ) (a : ℕ)
    (h : ∀ q ∈ l, q.2 ≠ a) :
    (l.foldl (fun acc q => acc.set q.2 q.1) acc).getD a 0 = acc.getD a 0 := by
  induction l generalizing acc with
  | nil => rfl
  | cons q l ih =>
    rw [List.foldl_cons, ih _ (fun r hr => h r (List.mem_cons_of_mem _ hr))]
    rw [List.getD_eq_getElem?_getD, List.getD_eq_getElem?_getD,
      List.getElem?_set_ne (h q (List.mem_cons_self _ _))]

theorem foldl_set_mem (l : List (ℕ × ℕ)) (acc : List ℕ) (i a : ℕ)
    (ha : a < acc.length) (hmem : (i, a) ∈ l)
    (hnd : (l.map Prod.snd).Nodup) :
    (l.foldl (fun acc q => acc.set q.2 q.1) acc).getD a 0 = i := by
  induction l generalizing acc with
  | nil => cases hmem
  | cons q l ih =>
    rw [List.map_cons, List.nodup_cons] at hnd
    rw [List.foldl_cons]
    rcases List.mem_cons.mp hmem with heq | hmem'
    · subst heq
      have hrest : ∀ r ∈ l, r.2 ≠ a := by
        intro r hr hcon
        have hmm : r.2 ∈ List.map Prod.snd l := List.mem_map_of_mem Prod.snd hr
        rw [hcon] at hmm
        exact hnd.1 hmm
      rw [foldl_set_not_mem _ _ _ hrest]
      have hset : (acc.set a i).getD a 0 = i := by
        rw [List.getD_eq_getElem?_getD, List.getElem?_set_self ha]
        rfl
      exact hset
    · exact ih _ (by rw [List.length_set]; exact ha) hmem' hnd.2

theorem writeRanks_length (p : List ℕ) : (writeRanks p).length = p.length := by
  rw [writeRanks, foldl_set_length, List.length_replicate]

theorem writeRanks_getD (p : List ℕ) (i : ℕ) (hi : i < p.length)
    (hlt : p.getD i 0 < p.length) (hnd : p.Nodup) :
    (writeRanks p).getD (p.getD i 0) 0 = i := by
  refine foldl_set_mem _ _ _ _ (by rw [List.length_replicate]; exact hlt) ?_ ?_
  · rw [List.getD_eq_getElem _ 0 hi]
    exact List.mem_enum_iff_getElem?.mpr (List.getElem?_eq_getElem hi)
  · rw [List.enum_map_snd]; exact hnd

theorem getD_reverse (l : List ℕ) (j : ℕ) (hj : j < l.length) :
    l.reverse.getD j 0 = l.getD (l.length - 1 - j) 0 := by
  have hj' : j < l.reverse.length := by rw [List.length_reverse]; exact hj
  have h2 : l.length - 1 - j < l.length := by omega
  rw [List.getD_eq_getElem _ 0 hj', List.getD_eq_getElem _ 0 h2]
  exact List.getElem_reverse _

theorem argsort_perm (v : List ℚ) : (argsort v).Perm (List.range v.length) :=
  List.mergeSort_perm (List.range v.length) _

theorem argsort_length (v : List ℚ) : (argsort v).length = v.length := by
  rw [(argsort_perm v).length_eq, List.length_range]

theorem argsort_nodup (v : List ℚ) : (argsort v).Nodup :=
  (argsort_perm v).symm.nodup (List.nodup_range _)

theorem argsort_mem_iff (v : List ℚ) (a : ℕ) : a ∈ argsort v ↔ a < v.length := by
  rw [(argsort_perm v).mem_iff, List.mem_range]

theorem argsort_getD_lt (v : List ℚ) (i : ℕ) (hi : i < (argsort v).length) :
    (argsort v).getD i 0 < v.length := by
  rw [← argsort_mem_iff, List.getD_eq_getElem _ 0 hi]
  exact List.getElem_mem hi

theorem rank_sum_of_nodup (v : List ℚ) (_hnd : v.Nodup) :
    (∀ i, i < v.length →
      (topKPerformers v).getD (((argsort v).reverse).getD i 0) 0 = i) ∧
    (∀ i, i < v.length →
      (bottomKPerformers v).getD ((argsort v).getD i 0) 0 = i) ∧
    ∀ a, a < v.length →
      (topKPerformers v).getD a 0 + (bottomKPerformers v).getD a 0 =
        v.length - 1 := by
  have hlen := argsort_length v
  have hndp := argsort_nodup v
  have hrlen : (argsort v).reverse.length = v.length := by
    rw [List.length_reverse, hlen]
  have hrev_lt : ∀ j, j < (argsort v).reverse.length →
      (argsort v).reverse.getD j 0 < v.length := by
    intro j hj
    rw [List.getD_eq_getElem _ 0 hj, List.getElem_reverse]
    have : (argsort v).length - 1 - j < (argsort v).length := by omega
    rw [← List.getD_eq_getElem _ 0 this]
    exact argsort_getD_lt v _ this
  refine ⟨?_, ?_, ?_⟩
  · intro i hi
    have hi' : i < (argsort v).reverse.length := by omega
    exact writeRanks_getD _ i hi' (by rw [hrlen]; exact hrev_lt i hi')
      (List.nodup_reverse.mpr hndp)
  · intro i hi
    have hi' : i < (argsort v).length := by omega
    exact writeRanks_getD _ i hi'
      (by rw [hlen]; exact argsort_getD_lt v i hi') hndp
  · intro a ha
    obtain ⟨i, hi, hia⟩ := List.mem_iff_getElem.mp ((argsort_mem_iff v a).mpr ha)
    have hia' : (argsort v).getD i 0 = a := by
      rw [List.getD_eq_getElem _ 0 hi, hia]
    have hbot : (bottomKPerformers v).getD a 0 = i := by
      rw [← hia']
      exact writeRanks_getD _ i hi (by rw [hia']; omega) hndp
    have hj : v.length - 1 - i < (argsort v).reverse.length := by omega
    have hrev : (argsort v).reverse.getD (v.length - 1 - i) 0 = a := by
      rw [getD_reverse _ _ (by omega : v.length - 1 - i < (argsort v).length)]
      have hidx : (argsort v).length - 1 - (v.length - 1 - i) = i := by omega
      rw [hidx, List.getD_eq_getElem _ 0 hi, hia]
    have htop : (topKPerformers v).getD a 0 = v.length - 1 - i := by
      rw [← hrev]
      exact writeRanks_getD _ _ hj (by rw [hrlen, hrev]; omega)
        (List.nodup_reverse.mpr hndp)
    rw [hbot, htop]
    omega

/-- C5: for an Analyzer whose assets have pairwise-distinct cumulative
returns, top and bottom performer ranks are inverse permutations of the
respective sort orders (rank 0 is best for top, worst for bottom), and
for every asset the two ranks sum to N - 1. -/
theorem C5_top_bottom_ranks (returns : List (List ℚ))
    (hnd : (cumulativeReturns returns).Nodup) :
    (∀ i, i < (cumulativeReturns returns).length →
      (topKPerformers (cumulativeReturns returns)).getD
        (((argsort (cumulativeReturns returns)).reverse).getD i 0) 0 = i) ∧
    (∀ i, i < (cumulativeReturns returns).length →
      (bottomKPerformers (cumulativeReturns returns)).getD
        ((argsort (cumulativeReturns returns)).getD i 0) 0 = i) ∧
    ∀ a, a < (cumulativeReturns returns).length →
      (topKPerformers (cumulativeReturns returns)).getD a 0 +
        (bottomKPerformers (cumulativeReturns returns)).getD a 0 =
        (cumulativeReturns returns).length - 1 :=
  rank_sum_of_nodup (cumulativeReturns returns) hnd

theorem C5_top_bottom_ranks_witness :
    (∀ i, i < (cumulativeReturns [[(0 : ℚ), 1]]).length →
      (topKPerformers (cumulativeReturns [[(0 : ℚ), 1]])).getD
        (((argsort (cumulativeReturns [[(0 : ℚ), 1]])).reverse).getD i 0) 0 = i) ∧
    (∀ i, i < (cumulativeReturns [[(0 : ℚ), 1]]).length →
      (bottomKPerformers (cumulativeReturns [[(0 : ℚ), 1]])).getD
        ((argsort (cumulativeReturns [[(0 : ℚ), 1]])).getD i 0) 0 = i) ∧
    ∀ a, a < (cumulativeReturns [[(0 : ℚ), 1]]).length →
      (topKPerformers (cumulativeReturns [[(0 : ℚ), 1]])).getD a 0 +
        (bottomKPerformers (cumulativeReturns [[(0 : ℚ), 1]])).getD a 0 =
        (cumulativeReturns [[(0 : ℚ), 1]]).length - 1 :=
  C5_top_bottom_ranks [[(0 : ℚ), 1]]
    (by norm_num [cumulativeReturns, colOf, List.range_succ])

/-- Pairs (index, value) of the non-NaN entries of a possibly-NaN series,
starting from index `i`.  This is the combination of the boolean mask
`not_nan_inds = ~np.isnan(y)` with `y[not_nan_inds]` and
`x_axis[not_nan_inds]` built by `Analyzer._interpoloate`. -/
def validPointsFrom : ℕ → List (Option ℚ) → List (ℕ × ℚ)
  | _, [] => []
  | i, none :: rest => validPointsFrom (i + 1) rest
  | i, some v :: rest => (i, v) :: validPointsFrom (i + 1) rest

/-- Previous-value step interpolation with boundary extrapolation, the
model of the external call
`scipy.interpolate.interp1d(x, y, kind='previous', fill_value='extrapolate')`
evaluated at the integer `t` (spec section 4.1): the value of the last
data point at or before `t`, and the first data point for a `t` that
precedes all of them. -/
def prevInterp (pts : List (ℕ × ℚ)) (t : ℕ) : ℚ :=
  match (pts.filter (fun p => p.1 ≤ t)).getLast? with
  | some p => p.2
  | none => (pts.headD (0, 0)).2

/-- Translation of `Analyzer._interpoloate` (mode 'previous') evaluated on
the integer axis `np.arange(n)`: build the NaN mask, pad it with False
when the signal is shorter than the axis, and interpolate through the
valid points.  A mask longer than the axis is a numpy boolean-indexing
IndexError (numpy 1.19.3, pinned in setup.py); an empty set of valid
points makes the scipy interpolator constructor fail (spec section 4.1
precondition). -/
def interpoloate (n : ℕ) (y : List (Option ℚ)) : Except String (List ℚ) :=
  if n < y.length then
    Except.error "boolean index did not match indexed array"
  else
    let pts := validPointsFrom 0 y
    if pts.isEmpty then
      Except.error "interp1d needs at least one valid data point"
    else
      Except.ok ((List.range n).map (prevInterp pts))

theorem validPointsFrom_fst_ge (y : List (Option ℚ)) (i : ℕ) :
    ∀ q ∈ validPointsFrom i y, i ≤ q.1 := by
  induction y generalizing i with
  | nil => intro q hq; cases hq
  | cons o rest ih =>
    intro q hq
    cases o with
    | none =>
      have := ih (i + 1) q hq
      omega
    | some v =>
      rcases List.mem_cons.mp hq with heq | hmem

      · rw [heq]
      · have := ih (i + 1) q hmem
        omega

theorem validPointsFrom_filter_take (y : List (Option ℚ)) (i t : ℕ) :
    (validPointsFrom i y).filter (fun p => p.1 ≤ i + t) =
      validPointsFrom i (y.take (t + 1)) := by
  induction y generalizing i t with
  | nil => simp [validPointsFrom]
  | cons o rest ih =>
    cases o with
    | none =>
      show (validPointsFrom (i + 1) rest).filter (fun p => p.1 ≤ i + t) =
        validPointsFrom (i + 1) (rest.take t)
      cases t with
      | zero =>
        rw [List.take_zero]
        show _ = ([] : List (ℕ × ℚ))
        rw [List.filter_eq_nil_iff]
        intro q hq
        have := validPointsFrom_fst_ge rest (i + 1) q hq
        simp only [decide_eq_true_eq]
        omega
      | succ t' =>
        have harith : i + (t' + 1) = (i + 1) + t' := by omega
        rw [harith]
        exact ih (i + 1) t'
    | some v =>
      show ((i, v) :: validPointsFrom (i + 1) rest).filter (fun p => p.1 ≤ i + t) =
        (i, v) :: validPointsFrom (i + 1) (rest.take t)
      rw [List.filter_cons_of_pos (by simp)]
      cases t with
      | zero =>
        rw [List.take_zero]
        show _ :: _ = _ :: ([] : List (ℕ × ℚ))
        congr 1
        rw [List.filter_eq_nil_iff]
        intro q hq
        have := validPointsFrom_fst_ge rest (i + 1) q hq
        simp only [decide_eq_true_eq]
        omega
      | succ t' =>
        have harith : i + (t' + 1) = (i + 1) + t' := by omega
        rw [harith]
        rw [ih (i + 1) t']

theorem validPointsFrom_eq_nil_iff (y : List (Option ℚ)) (i : ℕ) :
    validPointsFrom i y = [] ↔ y.filterMap id = [] := by
  induction y generalizing i with
  | nil => simp [validPointsFrom]
  | cons o rest ih =>
    cases o with
    | none =>
      show validPointsFrom (i + 1) rest = [] ↔ _
      rw [ih (i + 1)]
      simp [List.filterMap_cons]
    | some v => simp [validPointsFrom, List.filterMap_cons]

theorem validPointsFrom_getLast_snd (y : List (Option ℚ)) (i : ℕ) :
    ((validPointsFrom i y).getLast?).map Prod.snd = (y.filterMap id).getLast? := by
  induction y generalizing i with
  | nil => rfl
  | cons o rest ih =>
    cases o with
    | none =>
      show ((validPointsFrom (i + 1) rest).getLast?).map Prod.snd = _
      rw [ih (i + 1)]
      simp [List.filterMap_cons]
    | some v =>
      show (((i, v) :: validPointsFrom (i + 1) rest).getLast?).map Prod.snd = _
      simp only [List.filterMap_cons, id]
      rcases hq : validPointsFrom (i + 1) rest with _ | ⟨q, qs⟩
      · have hw : rest.filterMap id = [] := (validPointsFrom_eq_nil_iff rest (i + 1)).mp hq
        rw [hw]
        rfl
      · have hw : rest.filterMap id ≠ [] := by
          intro hcon
          rw [← validPointsFrom_eq_nil_iff rest (i + 1), hq] at hcon
          cases hcon
        rcases hfm : rest.filterMap id with _ | ⟨w, ws⟩
        · exact absurd hfm hw
        · rw [List.getLast?_cons_cons, List.getLast?_cons_cons]
          have := ih (i + 1)
          rw [hq, hfm] at this
          exact this

theorem validPointsFrom_head_snd (y : List (Option ℚ)) (i : ℕ) :
    ((validPointsFrom i y).head?).map Prod.snd = (y.filterMap id).head? := by
  induction y generalizing i with
  | nil => rfl
  | cons o rest ih =>
    cases o with
    | none =>
      show ((validPointsFrom (i + 1) rest).head?).map Prod.snd = _
      rw [ih (i + 1)]
      simp [List.filterMap_cons]
    | some v => simp [validPointsFrom, List.filterMap_cons]

theorem filterMap_id_map_some (ys : List ℚ) : (ys.map some).filterMap id = ys := by
  induction ys with
  | nil => rfl
  | cons x xs ih => simp [List.filterMap_cons, ih]

theorem prevInterp_validPoints (y : List (Option ℚ)) (t : ℕ)
    (hne : y.filterMap id ≠ []) :
    prevInterp (validPointsFrom 0 y) t =
      (((y.take (t + 1)).filterMap id).getLast?).getD ((y.filterMap id).headD 0) := by
  unfold prevInterp
  have hft := validPointsFrom_filter_take y 0 t
  rw [Nat.zero_add] at hft
  rw [hft]
  have hlast := validPointsFrom_getLast_snd (y.take (t + 1)) 0
  rcases hg : (validPointsFrom 0 (y.take (t + 1))).getLast? with _ | p
  · rw [hg, Option.map_none'] at hlast
    rw [← hlast, Option.getD_none]
    have hhead := validPointsFrom_head_snd y 0
    rcases hvp : validPointsFrom 0 y with _ | ⟨q, qs⟩
    · exact absurd ((validPointsFrom_eq_nil_iff y 0).mp hvp) hne
    · rw [hvp] at hhead
      rcases hfm : y.filterMap id with _ | ⟨w, ws⟩
      · exact absurd hfm hne
      · rw [hfm] at hhead
        simp only [List.head?_cons, Option.map_some'] at hhead
        have hq2 : q.2 = w := Option.some.inj hhead
        simp [hq2]
  · rw [hg, Option.map_some'] at hlast
    rw [← hlast, Option.getD_some]

theorem interpoloate_length (n : ℕ) (y : List (Option ℚ)) (r : List ℚ)
    (h : interpoloate n y = Except.ok r) : r.length = n := by
  unfold interpoloate at h
  by_cases h1 : n < y.length
  · rw [if_pos h1] at h; cases h
  · rw [if_neg h1] at h
    by_cases h2 : (validPointsFrom 0 y).isEmpty
    · rw [if_pos h2] at h; cases h
    · rw [if_neg h2] at h
      cases h
      rw [List.length_map, List.length_range]

/-- C6 (amended): a non-empty series without NaNs is returned unchanged by
the previous-mode Interpolator on the matching integer axis (the empty
series makes the scipy constructor fail, having no valid sample); and for
a series with at least one non-NaN sample, every non-NaN entry is kept
and every NaN entry is filled with the nearest earlier non-NaN value,
falling back to the earliest valid value for a NaN that precedes all
valid samples. -/
theorem C6_previous_interpolation :
    (∀ ys : List ℚ, ys ≠ [] →
      interpoloate ys.length (ys.map some) = Except.ok ys) ∧
    ∀ y : List (Option ℚ), y.filterMap id ≠ [] →
      ∃ r, interpoloate y.length y = Except.ok r ∧ r.length = y.length ∧
        (∀ t, t < y.length → ∀ v, y.getD t none = some v → r.getD t 0 = v) ∧
        ∀ t, t < y.length → y.getD t none = none →
          r.getD t 0 = (((y.take t).filterMap id).getLast?).getD
            ((y.filterMap id).headD 0) := by
  have main : ∀ y : List (Option ℚ), y.filterMap id ≠ [] →
      ∃ r, interpoloate y.length y = Except.ok r ∧ r.length = y.length ∧
        (∀ t, t < y.length → ∀ v, y.getD t none = some v → r.getD t 0 = v) ∧
        ∀ t, t < y.length → y.getD t none = none →
          r.getD t 0 = (((y.take t).filterMap id).getLast?).getD
            ((y.filterMap id).headD 0) := by
    intro y hne
    have hempty : (validPointsFrom 0 y).isEmpty = false := by
      rcases hvp : validPointsFrom 0 y with _ | ⟨q, qs⟩
      · exact absurd ((validPointsFrom_eq_nil_iff y 0).mp hvp) hne
      · rfl
    have hok : interpoloate y.length y =
        Except.ok ((List.range y.length).map (prevInterp (validPointsFrom 0 y))) := by
      unfold interpoloate
      rw [if_neg (lt_irrefl _)]
      simp only [hempty]
      rfl
    refine ⟨_, hok, by rw [List.length_map, List.length_range], ?_, ?_⟩
    · intro t ht v hv
      have htr : t < ((List.range y.length).map
          (prevInterp (validPointsFrom 0 y))).length := by
        rw [List.length_map, List.length_range]; exact ht
      rw [List.getD_eq_getElem _ 0 htr, List.getElem_map, List.getElem_range,
        prevInterp_validPoints y t hne]
      have htake : (y.take (t + 1)).filterMap id =
          (y.take t).filterMap id ++ [v] := by
        rw [List.take_succ]
        rw [List.getD_eq_getElem?_getD] at hv
        have : y[t]? = some (some v) := by
          rcases hyt : y[t]? with _ | o
          · rw [hyt] at hv; cases hv
          · rw [hyt] at hv
            simp only [Option.getD_some] at hv
            rw [hv]
        rw [this]
        simp [List.filterMap_append]
      rw [htake, List.getLast?_concat]
      rfl
    · intro t ht hv
      have htr : t < ((List.range y.length).map
          (prevInterp (validPointsFrom 0 y))).length := by
        rw [List.length_map, List.length_range]; exact ht
      rw [List.getD_eq_getElem _ 0 htr, List.getElem_map, List.getElem_range,
        prevInterp_validPoints y t hne]
      have htake : (y.take (t + 1)).filterMap id = (y.take t).filterMap id := by
        rw [List.take_succ]
        rw [List.getD_eq_getElem?_getD] at hv
        have : y[t]? = some none := by
          rcases hyt : y[t]? with _ | o
          · rw [hyt] at hv
            rw [List.getElem?_eq_none_iff] at hyt
            omega
          · rw [hyt] at hv
            simp only [Option.getD_some] at hv
            rw [hv]
        rw [this]
        simp [List.filterMap_append]
      rw [htake]
  refine ⟨?_, main⟩
  intro ys hys
  have hne : (ys.map some).filterMap id ≠ [] := by
    rw [filterMap_id_map_some]
    exact hys
  obtain ⟨r, hok, hlen, hsome, _⟩ := main (ys.map some) hne
  rw [List.length_map] at hok hlen
  rw [hok]
  congr 1
  apply List.ext_getElem
  · rw [hlen]
  · intro t h1 h2
    have hvt : (ys.map some).getD t none = some ys[t] := by
      have htm : t < (ys.map some).length := by rw [List.length_map]; exact h2
      rw [List.getD_eq_getElem _ none htm, List.getElem_map]
    have := hsome t (by rw [List.length_map] at *; exact h2) ys[t] hvt
    rw [← List.getD_eq_getElem r 0 h1, this]

theorem C6_previous_interpolation_witness :
    interpoloate 2 ([(5 : ℚ), 7].map some) = Except.ok [5, 7] ∧
    ∃ r, interpoloate 3 [some (5 : ℚ), none, some 7] = Except.ok r ∧
      r.length = 3 ∧
      (∀ t, t < 3 → ∀ v, [some (5 : ℚ), none, some 7].getD t none = some v →
        r.getD t 0 = v) ∧
      ∀ t, t < 3 → [some (5 : ℚ), none, some 7].getD t none = none →
        r.getD t 0 = ((([some (5 : ℚ), none, some 7].take t).filterMap id).getLast?).getD
          (([some (5 : ℚ), none, some 7].filterMap id).headD 0) :=
  ⟨C6_previous_interpolation.1 [(5 : ℚ), 7] (by decide),
    C6_previous_interpolation.2 [some (5 : ℚ), none, some 7] (by decide)⟩

theorem C6_previous_interpolation_counterexample :
    interpoloate (List.length ([] : List ℚ)) (([] : List ℚ).map some) ≠
      Except.ok [] := by
  intro h
  have herr : (Except.error "interp1d needs at least one valid data point" :
      Except String (List ℚ)) = Except.ok [] := h
  exact Except.noConfusion herr

/-- Translation of the risk-free alignment step of `Analyzer._analyze_sr`:
re-interpolate the risk-free series onto `np.arange(T1)` whenever its
length differs from the number of return rows, otherwise use it as is. -/
def alignRiskFree (t1 : ℕ) (rf : List ℚ) : Except String (List ℚ) :=
  if rf.length ≠ t1 then interpoloate t1 (rf.map some) else Except.ok rf

/-- Translation of `returns - np.expand_dims(risk_free_returns, 1)`:
subtract the risk-free return of day t from every asset return of day t. -/
def excessRows (returns : List (List ℚ)) (rf : List ℚ) : List (List ℚ) :=
  List.zipWith (fun row r => row.map (fun x => x - r)) returns rf

/-- Helper of `cumprodRows` carrying the elementwise product of all rows
seen so far. -/
def cumprodRowsAux (acc : List ℚ) : List (List ℚ) → List (List ℚ)
  | [] => []
  | r :: rs => List.zipWith (· * ·) acc r :: cumprodRowsAux (List.zipWith (· * ·) acc r) rs

/-- Translation of `np.cumprod(m, 0)`: row t of the result is the
elementwise product of rows 0..t of the input. -/
def cumprodRows : List (List ℚ) → List (List ℚ)
  | [] => []
  | r :: rs => r :: cumprodRowsAux r rs

/-- Helper of `cumprodList` carrying the running product. -/
def cumprodListAux (acc : ℚ) : List ℚ → List ℚ
  | [] => []
  | x :: xs => (acc * x) :: cumprodListAux (acc * x) xs

/-- One-dimensional running product: entry t is the product of entries
0..t, which is `np.cumprod` on a single column. -/
def cumprodList : List ℚ → List ℚ
  | [] => []
  | x :: xs => x :: cumprodListAux x xs

/-- Translation of `Analyzer._analyze_sr`: align the risk-free series to
the number of return rows, add one to the excess returns, take the
cumulative product over time, and divide, per asset, the final cumulative
value by the standard deviation of the cumulative path. -/
noncomputable def analyzeSr (returns : List (List ℚ)) (rf : List ℚ) :
    Except String (List ℝ) :=
  (alignRiskFree returns.length rf).map (fun rfa =>
    let ex := cumprodRows
      ((excessRows returns rfa).map (fun row => row.map (fun x => x + 1)))
    (List.range (returns.headD []).length).map (fun a =>
      (((ex.getLastD []).getD a 0 : ℚ) : ℝ) / popStd (colOf ex a)))

theorem getD_map_of_lt (l : List ℚ) (g : ℚ → ℚ) (a : ℕ) (h : a < l.length) :
    (l.map g).getD a 0 = g (l.getD a 0) := by
  have h2 : a < (l.map g).length := by rw [List.length_map]; exact h
  rw [List.getD_eq_getElem _ 0 h2, List.getElem_map, List.getD_eq_getElem _ 0 h]

theorem getD_zipWith_mul (xs ys : List ℚ) (a : ℕ)
    (hx : a < xs.length) (hy : a < ys.length) :
    (List.zipWith (· * ·) xs ys).getD a 0 = xs.getD a 0 * ys.getD a 0 := by
  have h : a < (List.zipWith (· * ·) xs ys).length := by
    rw [List.length_zipWith]; omega
  rw [List.getD_eq_getElem _ 0 h, List.getElem_zipWith,
    List.getD_eq_getElem _ 0 hx, List.getD_eq_getElem _ 0 hy]

theorem colOf_cons (r : List ℚ) (rows : List (List ℚ)) (a : ℕ) :
    colOf (r :: rows) a = r.getD a 0 :: colOf rows a := rfl

theorem colOf_map_rows (rows : List (List ℚ)) (g : ℚ → ℚ) (a : ℕ)
    (h : ∀ r ∈ rows, a < r.length) :
    colOf (rows.map (fun row => row.map g)) a = (colOf rows a).map g := by
  induction rows with
  | nil => rfl
  | cons r rows ih =>
    rw [List.map_cons, colOf_cons, colOf_cons, List.map_cons]
    rw [getD_map_of_lt r g a (h r (List.mem_cons_self _ _))]
    rw [ih (fun r hr => h r (List.mem_cons_of_mem _ hr))]

theorem colOf_excessRows (returns : List (List ℚ)) (rf : List ℚ) (a : ℕ)
    (h : ∀ r ∈ returns, a < r.length) :
    colOf (excessRows returns rf) a =
      List.zipWith (fun x r => x - r) (colOf returns a) rf := by
  induction returns generalizing rf with
  | nil => rfl
  | cons row rows ih =>
    cases rf with
    | nil => rfl
    | cons x xs =>
      show colOf ((row.map (fun v => v - x)) :: excessRows rows xs) a = _
      rw [colOf_cons, colOf_cons, List.zipWith_cons_cons]
      rw [getD_map_of_lt row _ a (h row (List.mem_cons_self _ _))]
      rw [ih xs (fun r hr => h r (List.mem_cons_of_mem _ hr))]

theorem colOf_cumprodRowsAux (acc : List ℚ) (rs : List (List ℚ)) (a : ℕ)
    (hacc : a < acc.length) (hrs : ∀ r ∈ rs, a < r.length) :
    colOf (cumprodRowsAux acc rs) a = cumprodListAux (acc.getD a 0) (colOf rs a) := by
  induction rs generalizing acc with
  | nil => rfl
  | cons r rs ih =>
    show colOf (List.zipWith (· * ·) acc r :: cumprodRowsAux _ rs) a = _
    rw [colOf_cons, colOf_cons]
    show _ = (acc.getD a 0 * r.getD a 0) :: cumprodListAux (acc.getD a 0 * r.getD a 0) (colOf rs a)
    have hr : a < r.length := hrs r (List.mem_cons_self _ _)
    have hz : a < (List.zipWith (· * ·) acc r).length := by
      rw [List.length_zipWith]; omega
    rw [getD_zipWith_mul acc r a hacc hr]
    congr 1
    rw [ih _ hz (fun r hr => hrs r (List.mem_cons_of_mem _ hr)),
      getD_zipWith_mul acc r a hacc hr]

theorem colOf_cumprodRows (rows : List (List ℚ)) (a : ℕ)
    (h : ∀ r ∈ rows, a < r.length) :
    colOf (cumprodRows rows) a = cumprodList (colOf rows a) := by
  cases rows with
  | nil => rfl
  | cons r rs =>
    show colOf (r :: cumprodRowsAux r rs) a = _
    rw [colOf_cons]
    show _ = r.getD a 0 :: cumprodListAux (r.getD a 0) (colOf rs a)
    congr 1
    exact colOf_cumprodRowsAux r rs a (h r (List.mem_cons_self _ _))
      (fun r hr => h r (List.mem_cons_of_mem _ hr))

theorem getLastD_colOf (rows : List (List ℚ)) (a : ℕ) (hne : rows ≠ []) :
    (colOf rows a).getLastD 0 = (rows.getLastD []).getD a 0 := by
  rcases hg : rows.getLast? with _ | last
  · exact absurd (List.getLast?_eq_none_iff.mp hg) hne
  · have h1 : (colOf rows a).getLast? = some (last.getD a 0) := by
      rw [colOf, List.getLast?_map, hg]
      rfl
    rw [List.getLastD_eq_getLast?, List.getLastD_eq_getLast?, h1, hg]
    rfl

theorem excessRows_length (returns : List (List ℚ)) (rf : List ℚ) (N : ℕ)
    (hrect : ∀ r ∈ returns, r.length = N) :
    ∀ r ∈ excessRows returns rf, r.length = N := by
  induction returns generalizing rf with
  | nil => intro r hr; cases hr
  | cons row rows ih =>
    cases rf with
    | nil => intro r hr; cases hr
    | cons x xs =>
      intro r hr
      rcases List.mem_cons.mp hr with heq | hmem
      · rw [heq, List.length_map]
        exact hrect row (List.mem_cons_self _ _)
      · exact ih xs (fun r hr => hrect r (List.mem_cons_of_mem _ hr)) r hmem

theorem excessRows_length_rows (returns : List (List ℚ)) (rf : List ℚ)
    (hlen : rf.length = returns.length) :
    (excessRows returns rf).length = returns.length := by
  rw [excessRows, List.length_zipWith]
  omega

theorem cumprodRowsAux_length (acc : List ℚ) (rs : List (List ℚ)) :
    (cumprodRowsAux acc rs).length = rs.length := by
  induction rs generalizing acc with
  | nil => rfl
  | cons r rs ih =>
    show (_ :: cumprodRowsAux _ rs).length = _
    rw [List.length_cons, List.length_cons, ih]

theorem cumprodRows_length (rows : List (List ℚ)) :
    (cumprodRows rows).length = rows.length := by
  cases rows with
  | nil => rfl
  | cons r rs =>
    show (r :: cumprodRowsAux r rs).length = _
    rw [List.length_cons, List.length_cons, cumprodRowsAux_length]

theorem alignRiskFree_ok (t1 : ℕ) (rf : List ℚ)
    (hne : rf ≠ []) (hle : rf.length ≤ t1) :
    ∃ rfa, alignRiskFree t1 rf = Except.ok rfa ∧ rfa.length = t1 := by
  unfold alignRiskFree
  by_cases heq : rf.length = t1
  · rw [if_neg (by omega)]
    exact ⟨rf, rfl, heq⟩
  · rw [if_pos (by omega)]
    have hnlt : ¬ t1 < (rf.map some).length := by
      rw [List.length_map]; omega
    have hvne : (validPointsFrom 0 (rf.map some)).isEmpty = false := by
      rcases hvp : validPointsFrom 0 (rf.map some) with _ | ⟨q, qs⟩
      · have := (validPointsFrom_eq_nil_iff (rf.map some) 0).mp hvp
        rw [filterMap_id_map_some] at this
        exact absurd this hne
      · rfl
    have hok : interpoloate t1 (rf.map some) =
        Except.ok ((List.range t1).map (prevInterp (validPointsFrom 0 (rf.map some)))) := by
      unfold interpoloate
      rw [if_neg hnlt]
      simp only [hvne]
      rfl
    exact ⟨_, hok, by rw [List.length_map, List.length_range]⟩

/-- C1 (amended): when the risk-free return series is at most as long as
the T-1 return rows (and non-empty), the Sharpe-ratio operation succeeds
and returns exactly one scalar per asset, equal per asset to the final
value of the cumulative product of one plus the excess return divided by
the standard deviation of that cumulative excess path; a risk-free series
strictly longer than the return rows instead raises a numpy
boolean-indexing error inside the re-interpolation. -/
theorem C1_sharpe_per_asset (returns : List (List ℚ)) (rf : List ℚ) (N : ℕ)
    (hT : 0 < returns.length)
    (hrect : ∀ r ∈ returns, r.length = N)
    (hrfne : rf ≠ [])
    (hshort : rf.length ≤ returns.length) :
    ∃ rfa l, alignRiskFree returns.length rf = Except.ok rfa ∧
      rfa.length = returns.length ∧
      analyzeSr returns rf = Except.ok l ∧ l.length = N ∧
      ∀ a, a < N →
        l.getD a 0 =
          (((cumprodList ((List.zipWith (fun x r => x - r) (colOf returns a) rfa).map
              (fun x => x + 1))).getLastD 0 : ℚ) : ℝ) /
            popStd (cumprodList
              ((List.zipWith (fun x r => x - r) (colOf returns a) rfa).map
                (fun x => x + 1))) := by
  obtain ⟨rfa, hrfa, hrfalen⟩ := alignRiskFree_ok returns.length rf hrfne hshort
  have hN : (returns.headD []).length = N := by
    rcases returns with _ | ⟨r0, rest⟩
    · cases hT
    · exact hrect r0 (List.mem_cons_self _ _)
  have hexlen : ∀ r ∈ excessRows returns rfa, r.length = N :=
    excessRows_length returns rfa N hrect
  have honep : ∀ r ∈ (excessRows returns rfa).map (fun row => row.map (fun x => x + 1)),
      r.length = N := by
    intro r hr
    obtain ⟨row, hrow, rfl⟩ := List.mem_map.mp hr
    rw [List.length_map]
    exact hexlen row hrow
  have hok : analyzeSr returns rf =
      Except.ok ((List.range (returns.headD []).length).map (fun a =>
        ((((cumprodRows ((excessRows returns rfa).map
            (fun row => row.map (fun x => x + 1)))).getLastD []).getD a 0 : ℚ) : ℝ) /
          popStd (colOf (cumprodRows ((excessRows returns rfa).map
            (fun row => row.map (fun x => x + 1)))) a))) := by
    unfold analyzeSr
    rw [hrfa]
    rfl
  refine ⟨rfa, _, hrfa, hrfalen, hok, ?_, ?_⟩
  · rw [List.length_map, List.length_range, hN]
  · intro a ha
    have hcol : colOf (cumprodRows
        ((excessRows returns rfa).map (fun row => row.map (fun x => x + 1)))) a =
        cumprodList ((List.zipWith (fun x r => x - r) (colOf returns a) rfa).map
          (fun x => x + 1)) := by
      rw [colOf_cumprodRows _ a (fun r hr => by rw [honep r hr]; exact ha)]
      rw [colOf_map_rows _ _ a (fun r hr => by rw [hexlen r hr]; exact ha)]
      rw [colOf_excessRows returns rfa a
        (fun r hr => by rw [hrect r hr]; exact ha)]
    have hexne : (excessRows returns rfa).map (fun row => row.map (fun x => x + 1)) ≠ [] := by
      intro hcon
      have h1 : ((excessRows returns rfa).map
          (fun row => row.map (fun x => x + 1))).length = 0 := by rw [hcon]; rfl
      rw [List.length_map, excessRows_length_rows returns rfa hrfalen] at h1
      omega
    have hcne : cumprodRows ((excessRows returns rfa).map
        (fun row => row.map (fun x => x + 1))) ≠ [] := by
      intro hcon
      have h1 : (cumprodRows ((excessRows returns rfa).map
          (fun row => row.map (fun x => x + 1)))).length = 0 := by rw [hcon]; rfl
      rw [cumprodRows_length] at h1
      exact hexne (List.length_eq_zero.mp h1)
    have hlast := getLastD_colOf (cumprodRows ((excessRows returns rfa).map
        (fun row => row.map (fun x => x + 1)))) a hcne
    have hav : a < ((List.range (returns.headD []).length).map (fun a =>
        ((((cumprodRows ((excessRows returns rfa).map
            (fun row => row.map (fun x => x + 1)))).getLastD []).getD a 0 : ℚ) : ℝ) /
          popStd (colOf (cumprodRows ((excessRows returns rfa).map
            (fun row => row.map (fun x => x + 1)))) a))).length := by
      rw [List.length_map, List.length_range, hN]; exact ha
    rw [List.getD_eq_getElem _ 0 hav, List.getElem_map, List.getElem_range,
      ← hlast, hcol]

theorem C1_sharpe_per_asset_witness :
    ∃ rfa l, alignRiskFree ([[(0 : ℚ)], [0]] : List (List ℚ)).length [0] = Except.ok rfa ∧
      rfa.length = ([[(0 : ℚ)], [0]] : List (List ℚ)).length ∧
      analyzeSr [[(0 : ℚ)], [0]] [0] = Except.ok l ∧ l.length = 1 ∧
      ∀ a, a < 1 →
        l.getD a 0 =
          (((cumprodList ((List.zipWith (fun x r => x - r)
              (colOf [[(0 : ℚ)], [0]] a) rfa).map
              (fun x => x + 1))).getLastD 0 : ℚ) : ℝ) /
            popStd (cumprodList
              ((List.zipWith (fun x r => x - r) (colOf [[(0 : ℚ)], [0]] a) rfa).map
                (fun x => x + 1))) :=
  C1_sharpe_per_asset [[(0 : ℚ)], [0]] [0] 1 (by decide) (by decide) (by decide)
    (by decide)

theorem C1_sharpe_counterexample :
    analyzeSr [[(1 : ℚ)]] [0, 0] =
      Except.error "boolean index did not match indexed array" := rfl

/-- Smoothing strategies supported by `Smoother` (the method string is
validated by an assert in the constructor). -/
inductive SmMethod
  | avg
  | exp
  | holt_winter
  | polyfit
deriving DecidableEq

/-- Constructor parameters of a `Smoother` instance. -/
structure SmootherCfg where
  method : SmMethod
  winLen : ℕ
  alpha : ℚ
  optimize : Bool
  trend : Option String
  polyDegree : ℕ
deriving DecidableEq

/-- Fitted state cached in `Smoother.exp_smoother`: the result of fitting
either `SimpleExpSmoothing` (given the series and the smoothing level
used) or the Holt-Winters `ExponentialSmoothing` (given the series and
the trend); the external library fit is a deterministic function of these
inputs. -/
inductive ExpModel
  | ses (series : List ℚ) (alpha : ℚ)
  | hw (series : List ℚ) (trend : Option String)
deriving DecidableEq

/-- Fitted state cached in `Smoother.poly`: a least-squares polynomial
fit is determined by the series and the degree. -/
structure PolyModel where
  series : List ℚ
  degree : ℕ
deriving DecidableEq

/-- Fitted state cached in `Forecaster._arima_model`. -/
structure ArimaModel where
  series : List ℚ
  orders : ℕ × ℕ × ℕ
deriving DecidableEq

/-- Fitted state cached in `Forecaster._sarimax_model`. -/
structure SarimaxModel where
  series : List ℚ
  orders : ℕ × ℕ × ℕ
  seasonalOrder : ℕ × ℕ × ℕ × ℕ
deriving DecidableEq

/-- Pointwise prediction semantics of the external statsmodels and numpy
polynomial models: a fitted model predicts one value per integer index,
`model.predict(start, end)` returns those values for start..end, and the
optimizing exponential fit chooses a smoothing level from the series.
The fits themselves are deterministic functions of their inputs, so only
the predicted values are kept abstract. -/
structure ExtModels where
  optAlpha : List ℚ → ℚ
  expPredict : ExpModel → ℕ → ℚ
  polyEval : PolyModel → ℕ → ℚ
  arimaPredict : ArimaModel → String → ℕ → ℚ
  sarimaxPredict : SarimaxModel → ℕ → ℚ

/-- Model of `model.predict(start=s, end=e)`: one prediction per index
from s to e inclusive. -/
def predictRange (f : ℕ → ℚ) (s e : ℕ) : List ℚ :=
  (List.range (e + 1 - s)).map (fun k => f (s + k))

/-- Forecasting method of a `Forecaster` (validated at construction; the
smoother method requires a Smoother instance, carried in the variant). -/
inductive FMethod
  | smoother (sm : SmootherCfg)
  | arima
  | sarimax
deriving DecidableEq

/-- Constructor parameters of a `Forecaster`. -/
structure ForecasterCfg where
  method : FMethod
  forecastHorizon : ℕ
  arimaOrders : ℕ × ℕ × ℕ
  arimaPredictionType : String
  sarimaxOrders : ℕ × ℕ × ℕ
  sarimaxSeasonalOrder : ℕ × ℕ × ℕ × ℕ
  removeMean : Bool
deriving DecidableEq

/-- Mutable state of a `Forecaster` together with the mutable fields of
its attached Smoother: the lazily fitted model caches, the smoothing
level (overwritten by an optimizing exponential fit) and the cached
`_mean`. -/
structure FState where
  smAlpha : ℚ
  smExp : Option ExpModel
  smPoly : Option PolyModel
  arimaModel : Option ArimaModel
  sarimaxModel : Option SarimaxModel
  mean : ℚ
deriving DecidableEq

/-- State of a freshly constructed `Forecaster`: every model cache empty,
`_mean = 0`, the smoothing level as configured. -/
def initState (cfg : ForecasterCfg) : FState :=
  ⟨match cfg.method with
    | .smoother sm => sm.alpha
    | _ => 0,
    none, none, none, none, 0⟩

/-- State effect of `Smoother.smooth` (calling `smoother(time_series)`):
the exponential, Holt-Winters and polynomial fits are cached, the
optimizing exponential fit also overwrites `self.alpha` with the fitted
level, and running-window smoothing caches nothing. -/
def smootherFit (ext : ExtModels) (sm : SmootherCfg) (st : FState)
    (ts : List ℚ) : FState :=
  match sm.method with
  | .exp =>
    let a := if sm.optimize then ext.optAlpha ts else st.smAlpha
    { st with smAlpha := a, smExp := some (ExpModel.ses ts a) }
  | .holt_winter => { st with smExp := some (ExpModel.hw ts sm.trend) }
  | .polyfit => { st with smPoly := some ⟨ts, sm.polyDegree⟩ }
  | .avg => st

/-- Translation of `Forecaster._smooth_forecast_exp`: fit on the fly when
no exponential model is cached yet, then predict the index range
`len(ts) .. len(ts) + horizon - 1`. -/
def smoothForecastExp (ext : ExtModels) (sm : SmootherCfg) (horizon : ℕ)
    (st : FState) (ts : List ℚ) : List ℚ × FState :=
  let st1 := if st.smExp.isNone then smootherFit ext sm st ts else st
  match st1.smExp with
  | some m =>
    (predictRange (ext.expPredict m) ts.length (ts.length + horizon - 1), st1)
  | none => ([], st1)

/-- Translation of `Forecaster._smooth_forecast_poly`: fit on the fly
when no polynomial is cached yet, then evaluate the polynomial on
`np.arange(len(ts), len(ts) + horizon)`. -/
def smoothForecastPoly (ext : ExtModels) (sm : SmootherCfg) (horizon : ℕ)
    (st : FState) (ts : List ℚ) : List ℚ × FState :=
  let st1 := if st.smPoly.isNone then smootherFit ext sm st ts else st
  match st1.smPoly with
  | some m => ((List.range' ts.length horizon).map (ext.polyEval m), st1)
  | none => ([], st1)

/-- Translation of the avg branch of `Forecaster._smooth_forecast`: start
from the mean of the series, then for `i in range(1, min(horizon,
len(ts) - 1))` append the mean of the remaining tail `ts[i:]` plus the
forecasts made so far. -/
def avgForecast (horizon : ℕ) (ts : List ℚ) : List ℚ :=
  (List.range' 1 (min horizon (ts.length - 1) - 1)).foldl
    (fun fc i => fc ++ [listMean (ts.drop i ++ fc)])
    [listMean ts]

/-- Translation of `Forecaster._smooth_forecast`: dispatch on the method
of the attached Smoother. -/
def smoothForecast (ext : ExtModels) (sm : SmootherCfg) (horizon : ℕ)
    (st : FState) (ts : List ℚ) : List ℚ × FState :=
  match sm.method with
  | .exp => smoothForecastExp ext sm horizon st ts
  | .holt_winter => smoothForecastExp ext sm horizon st ts
  | .avg => (avgForecast horizon ts, st)
  | .polyfit => smoothForecastPoly ext sm horizon st ts

/-- Translation of `Forecaster._arima_forecast`: fit lazily, then predict
over the explicit [start, end] range, defaulting to the next
`forecast_horizon` indices when either bound is missing. -/
def arimaForecast (ext : ExtModels) (cfg : ForecasterCfg) (st : FState)
    (ts : List ℚ) (ps pe : Option ℕ) : List ℚ × FState :=
  let st1 := if st.arimaModel.isNone then
      { st with arimaModel := some ⟨ts, cfg.arimaOrders⟩ } else st
  let m := st1.arimaModel.getD ⟨ts, cfg.arimaOrders⟩
  let se : ℕ × ℕ :=
    match ps, pe with
    | some s, some e => (s, e)
    | _, _ => (ts.length, ts.length + cfg.forecastHorizon - 1)
  (predictRange (ext.arimaPredict m cfg.arimaPredictionType) se.1 se.2, st1)

/-- Translation of `Forecaster._sarimax_forecast`: analogous to the ARIMA
case with an added seasonal order. -/
def sarimaxForecast (ext : ExtModels) (cfg : ForecasterCfg) (st : FState)
    (ts : List ℚ) (ps pe : Option ℕ) : List ℚ × FState :=
  let fit : SarimaxModel := ⟨ts, cfg.sarimaxOrders, cfg.sarimaxSeasonalOrder⟩
  let st1 := if st.sarimaxModel.isNone then
      { st with sarimaxModel := some fit } else st
  let m := st1.sarimaxModel.getD fit
  let se : ℕ × ℕ :=
    match ps, pe with
    | some s, some e => (s, e)
    | _, _ => (ts.length, ts.length + cfg.forecastHorizon - 1)
  (predictRange (ext.sarimaxPredict m) se.1 se.2, st1)

/-- Translation of `Forecaster.forecast`: with `remove_mean`, cache the
mean and subtract it from the input array in place
(`time_series -= self._mean`), dispatch on the configured method, and add
`self._mean` to the output.  Returns the forecast, the updated state, and
the contents of the caller array after the call. -/
def forecast (ext : ExtModels) (cfg : ForecasterCfg) (st : FState)
    (ts : List ℚ) (ps pe : Option ℕ) : List ℚ × FState × List ℚ :=
  let st1 := if cfg.removeMean then { st with mean := listMean ts } else st
  let ts1 := if cfg.removeMean then ts.map (fun x => x - listMean ts) else ts
  match cfg.method with
  | .smoother sm =>
    let r := smoothForecast ext sm cfg.forecastHorizon st1 ts1
    (r.1.map (fun x => x + st1.mean), r.2, ts1)
  | .arima =>
    let r := arimaForecast ext cfg st1 ts1 ps pe
    (r.1.map (fun x => x + st1.mean), r.2, ts1)
  | .sarimax =>
    let r := sarimaxForecast ext cfg st1 ts1 ps pe
    (r.1.map (fun x => x + st1.mean), r.2, ts1)

/-- Translation of `Forecaster.reset`: clear the Smoother cache matching
the Smoother method, and the ARIMA / SARIMAX models. -/
def resetState (cfg : ForecasterCfg) (st : FState) : FState :=
  let st1 :=
    match cfg.method with
    | .smoother sm =>
      match sm.method with
      | .avg => { st with smExp := none }
      | .exp => { st with smExp := none }
      | .holt_winter => { st with smExp := none }
      | .polyfit => { st with smPoly := none }
    | _ => st
  { st1 with arimaModel := none, sarimaxModel := none }

/-- Translation of `Smoother.description` (one successive if per
method, exactly one of which matches a validated method). -/
def smootherDescription (sm : SmootherCfg) : String :=
  match sm.method with
  | .avg => "Average Window: Length = " ++ toString sm.winLen
  | .exp => "Exponential Smoothing: alpha = " ++ toString sm.alpha
  | .holt_winter => "Holt-Winter Smoothing: trend = " ++ toString sm.trend
  | .polyfit => "PolyFit: Order = " ++ toString sm.polyDegree

/-- Translation of `Forecaster.description`: only the smoother and arima
branches assign the local variable that is returned; for the sarimax
method the return statement reads an unassigned local, a Python
UnboundLocalError, modelled as `none`. -/
def description (cfg : ForecasterCfg) : Option String :=
  match cfg.method with
  | .smoother sm =>
    some ("Smoothing based forecast: " ++ smootherDescription sm)
  | .arima =>
    some ("ARIMA based forecast: Orders = " ++ toString cfg.arimaOrders)
  | .sarimax => none

/-- External-model semantics used only to instantiate closed concrete
examples; every theorem below quantifies over the `ExtModels`. -/
def extZero : ExtModels :=
  ⟨fun _ => 0, fun _ _ => 0, fun _ _ => 0, fun _ _ _ => 0, fun _ _ => 0⟩

/-- Concrete avg-method Smoother used in closed examples. -/
def avgSmootherCfg : SmootherCfg :=
  ⟨SmMethod.avg, 5, 6 / 10, false, none, 2⟩

/-- Concrete smoother-method Forecaster over an avg Smoother. -/
def avgForecasterCfg (horizon : ℕ) : ForecasterCfg :=
  ⟨FMethod.smoother avgSmootherCfg, horizon, (1, 0, 1), "levels",
    (1, 0, 1), (0, 0, 0, 0), false⟩

/-- Concrete sarimax-method Forecaster (default parameters). -/
def sarimaxForecasterCfg : ForecasterCfg :=
  ⟨FMethod.sarimax, 5, (1, 0, 1), "levels", (1, 0, 1), (0, 0, 0, 0), false⟩

theorem predictRange_length (f : ℕ → ℚ) (s e : ℕ) :
    (predictRange f s e).length = e + 1 - s := by
  rw [predictRange, List.length_map, List.length_range]

theorem foldl_append_one_length (l : List ℕ) (init : List ℚ) (ts : List ℚ) :
    (l.foldl (fun fc i => fc ++ [listMean (ts.drop i ++ fc)]) init).length =
      init.length + l.length := by
  induction l generalizing init with
  | nil => rfl
  | cons x xs ih =>
    rw [List.foldl_cons, ih, List.length_append]
    simp only [List.length_cons, List.length_nil]
    omega

theorem avgForecast_length (horizon : ℕ) (ts : List ℚ) :
    (avgForecast horizon ts).length =
      1 + (min horizon (ts.length - 1) - 1) := by
  rw [avgForecast, foldl_append_one_length, List.length_range']
  rfl

/-- Predicate under which the configured horizon is attainable: an avg
Smoother needs a series strictly longer than the horizon, every other
method only needs the non-empty series. -/
def horizonOk (cfg : ForecasterCfg) (ts : List ℚ) : Bool :=
  match cfg.method with
  | .smoother sm =>
    if sm.method = SmMethod.avg then
      decide (cfg.forecastHorizon + 1 ≤ ts.length)
    else true
  | _ => true

/-- C3 (amended): with forecast_horizon = H ≥ 1, no explicit prediction
start or end override, and a non-empty input series, forecast returns
exactly H values for the smoother (exp, holt_winter, polyfit), arima and
sarimax methods; for a smoother with the avg method this additionally
requires the series to be longer than H, since the avg recursion runs
only `min(H, len(series) - 1)` steps. -/
theorem C3_forecast_length (ext : ExtModels) (cfg : ForecasterCfg) (ts : List ℚ)
    (hne : ts ≠ []) (hH : 1 ≤ cfg.forecastHorizon)
    (hok : horizonOk cfg ts = true) :
    (forecast ext cfg (initState cfg) ts none none).1.length =
      cfg.forecastHorizon := by
  rcases cfg with ⟨m, H, ao, apt, so, sso, rm⟩
  dsimp only at hH hok ⊢
  have hlpos : 0 < ts.length := List.length_pos.mpr hne
  cases m with
  | smoother sm =>
    rcases sm with ⟨smm, L, alpha, opt, trend, deg⟩
    cases smm with
    | avg =>
      have hok' : H + 1 ≤ ts.length := by simpa [horizonOk] using hok
      cases rm <;>
        simp [forecast, smoothForecast, avgForecast_length] <;> omega
    | exp =>
      cases rm <;> cases opt <;>
        simp [forecast, smoothForecast, smoothForecastExp, smootherFit,
          initState, predictRange_length] <;> omega
    | holt_winter =>
      cases rm <;>
        simp [forecast, smoothForecast, smoothForecastExp, smootherFit,
          initState, predictRange_length] <;> omega
    | polyfit =>
      cases rm <;>
        simp [forecast, smoothForecast, smoothForecastPoly, smootherFit,
          initState]
  | arima =>
    cases rm <;>
      simp [forecast, arimaForecast, initState, predictRange_length] <;> omega
  | sarimax =>
    cases rm <;>
      simp [forecast, sarimaxForecast, initState, predictRange_length] <;> omega

theorem C3_forecast_length_witness :
    ([(1 : ℚ), 2, 3] ≠ ([] : List ℚ)) ∧
    1 ≤ (avgForecasterCfg 2).forecastHorizon ∧
    horizonOk (avgForecasterCfg 2) [(1 : ℚ), 2, 3] = true ∧
    (forecast extZero (avgForecasterCfg 2) (initState (avgForecasterCfg 2))
      [(1 : ℚ), 2, 3] none none).1.length = (avgForecasterCfg 2).forecastHorizon :=
  ⟨by decide, by decide, by decide,
    C3_forecast_length extZero (avgForecasterCfg 2) [(1 : ℚ), 2, 3]
      (by decide) (by decide) (by decide)⟩

/-- C3 as stated is refuted on the avg Smoother: with horizon 5 and the
non-empty series [1, 2] the forecast has a single entry, not 5. -/
theorem C3_forecast_length_counterexample :
    (forecast extZero (avgForecasterCfg 5) (initState (avgForecasterCfg 5))
      [(1 : ℚ), 2] none none).1.length ≠ 5 := by
  decide

/-- C4: reset clears every cached fitted model, and a forecast after a
reset on a new series returns exactly the forecast and state that a
freshly constructed Forecaster would produce on that series: no fitted
parameter of the series seen before the reset is reused. -/
theorem C4_reset_refits_from_scratch (ext : ExtModels) (cfg : ForecasterCfg)
    (ts1 ts2 : List ℚ) (ps pe : Option ℕ) :
    (resetState cfg (forecast ext cfg (initState cfg) ts1 ps pe).2.1).smExp = none ∧
    (resetState cfg (forecast ext cfg (initState cfg) ts1 ps pe).2.1).smPoly = none ∧
    (resetState cfg (forecast ext cfg (initState cfg) ts1 ps pe).2.1).arimaModel = none ∧
    (resetState cfg (forecast ext cfg (initState cfg) ts1 ps pe).2.1).sarimaxModel = none ∧
    forecast ext cfg (resetState cfg (forecast ext cfg (initState cfg) ts1 ps pe).2.1)
        ts2 none none =
      forecast ext cfg (initState cfg) ts2 none none := by
  rcases cfg with ⟨m, H, ao, apt, so, sso, rm⟩
  cases m with
  | smoother sm =>
    rcases sm with ⟨smm, L, alpha, opt, trend, deg⟩
    cases smm <;> cases rm <;> cases opt <;> exact ⟨rfl, rfl, rfl, rfl, rfl⟩
  | arima => cases rm <;> exact ⟨rfl, rfl, rfl, rfl, rfl⟩
  | sarimax => cases rm <;> exact ⟨rfl, rfl, rfl, rfl, rfl⟩

/-- C9: the description property returns the rendered method and
parameters for the smoother and arima methods, but for the supported
sarimax method its return statement reads a local variable no branch has
assigned, raising UnboundLocalError instead of returning a string. -/
theorem C9_description_sarimax_unbound :
    description sarimaxForecasterCfg = none ∧
    (∀ sm H ao apt so sso rm,
      (description ⟨FMethod.smoother sm, H, ao, apt, so, sso, rm⟩).isSome = true) ∧
    ∀ H ao apt so sso rm,
      (description ⟨FMethod.arima, H, ao, apt, so, sso, rm⟩).isSome = true := by
  refine ⟨rfl, ?_, ?_⟩ <;> (intros; rfl)

/-- C10: forecast rewrites the caller array in place: with remove_mean
the array afterwards holds the original values minus their mean, for
every forecasting method; without remove_mean it is unchanged. -/
theorem C10_forecast_mutates_input (ext : ExtModels) (cfg : ForecasterCfg)
    (st : FState) (ts : List ℚ) (ps pe : Option ℕ) :
    (forecast ext cfg st ts ps pe).2.2 =
      if cfg.removeMean then ts.map (fun x => x - listMean ts) else ts := by
  rcases cfg with ⟨m, H, ao, apt, so, sso, rm⟩
  cases m <;> cases rm <;> rfl

/-- NaN detector over a possibly-NaN matrix, modelling
`any(np.isnan(quotes).reshape(-1))`. -/
def hasNan (m : List (List (Option ℚ))) : Bool :=
  m.any (fun row => row.any (fun o => o.isNone))

/-- Per-asset total spectral energy, `np.sum(power_spectrum, axis=0)` at
column i. -/
def totalEnergy (ps : List (List ℚ)) (i : ℕ) : ℚ := (colOf ps i).sum

/-- Entry (f, i) of the normalized power spectrum
`power_spectrum / np.expand_dims(total_energy, 0)`. -/
def normalizedEntry (ps : List (List ℚ)) (f i : ℕ) : ℚ :=
  (ps.getD f []).getD i 0 / totalEnergy ps i

/-- NaN detector for the normalized power spectrum: an IEEE float
division yields NaN exactly for 0 / 0 (a nonzero numerator over zero is
infinite, not NaN), so entry (f, i) is NaN iff the raw entry and the
column total both vanish. -/
def normalizedHasNan (ps : List (List ℚ)) : Bool :=
  ps.any (fun row => (List.range row.length).any (fun i =>
    decide (totalEnergy ps i = 0) && decide (row.getD i 0 = 0)))

/-- Translation of `Analyzer._get_spectral_components`, taking the output
(frequencies, power_spectrum) of the external Welch estimator as given:
assert no NaN in the quotes, normalize the per-asset spectral energy,
assert no NaN in the normalization, keep per asset the frequency bins
whose normalized energy exceeds the threshold, drop empty component sets
while collecting the frequency and energy lists, and assert that both
collections still have one entry per asset; only then are they stored. -/
def getSpectralComponents (threshold : ℚ) (nAssets : ℕ)
    (quotes : List (List (Option ℚ))) (frequencies : List ℚ)
    (powerSpectrum : List (List ℚ)) :
    Except String (List (List ℚ) × List (List ℚ)) :=
  if hasNan quotes then
    Except.error "Detected NaNs in the quotes"
  else if normalizedHasNan powerSpectrum then
    Except.error "Detected NaNs in the normalized power spectrum"
  else
    let comps := (List.range nAssets).map (fun i =>
      (List.range powerSpectrum.length).filter (fun f =>
        threshold < normalizedEntry powerSpectrum f i))
    let freqs := (comps.filter (fun c => !c.isEmpty)).map
      (fun c => c.map (fun f => frequencies.getD f 0))
    let energies := ((comps.enum).filter (fun p => !p.2.isEmpty)).map
      (fun p => p.2.map (fun f => normalizedEntry powerSpectrum f p.1))
    if freqs.length = nAssets then
      if energies.length = nAssets then
        Except.ok (freqs, energies)
      else
        Except.error "Spectral components were not found for all assets"
    else
      Except.error "Spectral components were not found for all assets"

theorem enumFrom_filter_isEmpty_length {α : Type} (l : List (List α)) :
    ∀ n, ((List.enumFrom n l).filter (fun p => !p.2.isEmpty)).length =
      (l.filter (fun c => !c.isEmpty)).length := by
  induction l with
  | nil => intro n; rfl
  | cons x xs ih =>
    intro n
    show (((n, x) :: List.enumFrom (n + 1) xs).filter
      (fun p => !p.2.isEmpty)).length = _
    rcases hq : x.isEmpty with _ | _
    · rw [List.filter_cons_of_pos (by simpa using hq),
        List.filter_cons_of_pos (by simpa using hq),
        List.length_cons, List.length_cons, ih]
    · rw [List.filter_cons_of_neg (by simpa using hq),
        List.filter_cons_of_neg (by simpa using hq), ih]

theorem enum_filter_isEmpty_length {α : Type} (l : List (List α)) :
    ((l.enum).filter (fun p => !p.2.isEmpty)).length =
      (l.filter (fun c => !c.isEmpty)).length :=
  enumFrom_filter_isEmpty_length l 0

theorem comps_filter_length_iff (threshold : ℚ) (nAssets : ℕ)
    (ps : List (List ℚ)) :
    ((((List.range nAssets).map (fun i =>
        (List.range ps.length).filter (fun f =>
          threshold < normalizedEntry ps f i))).filter
        (fun c => !c.isEmpty)).length = nAssets) ↔
      ∀ i, i < nAssets → ∃ f, f < ps.length ∧ threshold < normalizedEntry ps f i := by
  have hmem_iff : (∀ c ∈ (List.range nAssets).map (fun i =>
      (List.range ps.length).filter (fun f =>
        threshold < normalizedEntry ps f i)), (!c.isEmpty) = true) ↔
      ∀ i, i < nAssets → ∃ f, f < ps.length ∧
        threshold < normalizedEntry ps f i := by
    constructor
    · intro h i hi
      have hmem : (List.range ps.length).filter (fun f =>
          threshold < normalizedEntry ps f i) ∈
          (List.range nAssets).map (fun i => (List.range ps.length).filter
            (fun f => threshold < normalizedEntry ps f i)) :=
        List.mem_map_of_mem _ (List.mem_range.mpr hi)
      have hne := h _ hmem
      rw [Bool.not_eq_eq_eq_not, Bool.not_true, List.isEmpty_eq_false] at hne
      obtain ⟨f, hf⟩ := List.exists_mem_of_ne_nil _ hne
      rw [List.mem_filter, List.mem_range, decide_eq_true_eq] at hf
      exact ⟨f, hf.1, hf.2⟩
    · intro h c hc
      obtain ⟨i, hi, rfl⟩ := List.mem_map.mp hc
      rw [List.mem_range] at hi
      obtain ⟨f, hf, hgt⟩ := h i hi
      rw [Bool.not_eq_eq_eq_not, Bool.not_true, List.isEmpty_eq_false]
      intro hnil
      have hfm : f ∈ (List.range ps.length).filter (fun f =>
          threshold < normalizedEntry ps f i) := by
        rw [List.mem_filter, List.mem_range, decide_eq_true_eq]
        exact ⟨hf, hgt⟩
      rw [hnil] at hfm
      cases hfm
  constructor
  · intro hlen
    apply hmem_iff.mp
    rw [← List.filter_length_eq_length]
    rw [List.length_map, List.length_range]
    exact hlen
  · intro h
    have hlen := List.filter_length_eq_length.mpr (hmem_iff.mpr h)
    rw [List.length_map, List.length_range] at hlen
    exact hlen

theorem normalizedHasNan_false (nAssets : ℕ) (ps : List (List ℚ))
    (hpos : ∀ i, i < nAssets → 0 < totalEnergy ps i)
    (hw : ∀ row ∈ ps, row.length = nAssets) :
    normalizedHasNan ps = false := by
  rw [normalizedHasNan, List.any_eq_false]
  intro row hrow
  rw [Bool.not_eq_true, List.any_eq_false]
  intro i hi
  rw [List.mem_range, hw row hrow] at hi
  have hpi := hpos i hi
  rw [Bool.not_eq_true, Bool.and_eq_false_iff]
  left
  rw [decide_eq_false_iff_not]
  intro hcon
  rw [hcon] at hpi
  exact lt_irrefl 0 hpi

/-- C7: with NaN-free quotes and a power spectrum with one column per
asset and positive per-asset total energy, the spectral-components
operation fails exactly when at least one asset has no frequency bin
whose normalized energy exceeds the threshold; when it succeeds it
returns both collections with one entry per asset (so an error carries no
partial result); and quotes containing any NaN always fail fast. -/
theorem C7_spectral_threshold (threshold : ℚ) (nAssets : ℕ)
    (quotes : List (List (Option ℚ))) (frequencies : List ℚ)
    (ps : List (List ℚ))
    (hq : hasNan quotes = false)
    (hpos : ∀ i, i < nAssets → 0 < totalEnergy ps i)
    (hw : ∀ row ∈ ps, row.length = nAssets) :
    ((getSpectralComponents threshold nAssets quotes frequencies ps).isOk = false ↔
      ∃ i, i < nAssets ∧ ∀ f, f < ps.length →
        normalizedEntry ps f i ≤ threshold) ∧
    (∀ r, getSpectralComponents threshold nAssets quotes frequencies ps =
        Except.ok r → r.1.length = nAssets ∧ r.2.length = nAssets) ∧
    ∀ quotes' : List (List (Option ℚ)), hasNan quotes' = true →
      (getSpectralComponents threshold nAssets quotes' frequencies ps).isOk
        = false := by
  have hnn := normalizedHasNan_false nAssets ps hpos hw
  have hred : getSpectralComponents threshold nAssets quotes frequencies ps =
      (if (((List.range nAssets).map (fun i =>
          (List.range ps.length).filter (fun f =>
            threshold < normalizedEntry ps f i))).filter
          (fun c => !c.isEmpty)).length = nAssets then
        Except.ok
          (((((List.range nAssets).map (fun i =>
              (List.range ps.length).filter (fun f =>
                threshold < normalizedEntry ps f i))).filter
              (fun c => !c.isEmpty)).map
              (fun c => c.map (fun f => frequencies.getD f 0))),
            (((((List.range nAssets).map (fun i =>
              (List.range ps.length).filter (fun f =>
                threshold < normalizedEntry ps f i))).enum).filter
              (fun p => !p.2.isEmpty)).map
              (fun p => p.2.map (fun f => normalizedEntry ps f p.1))))
      else
        Except.error "Spectral components were not found for all assets") := by
    rw [getSpectralComponents]
    rw [hq, hnn]
    simp only [Bool.false_eq_true, if_false]
    rw [List.length_map, List.length_map, enum_filter_isEmpty_length]
    by_cases hk : ((((List.range nAssets).map (fun i =>
        (List.range ps.length).filter (fun f =>
          threshold < normalizedEntry ps f i))).filter
        (fun c => !c.isEmpty)).length = nAssets)
    · rw [if_pos hk, if_pos hk]
    · rw [if_neg hk, if_neg hk]
  refine ⟨?_, ?_, ?_⟩
  · rw [hred]
    by_cases hk : ((((List.range nAssets).map (fun i =>
        (List.range ps.length).filter (fun f =>
          threshold < normalizedEntry ps f i))).filter
        (fun c => !c.isEmpty)).length = nAssets)
    · rw [if_pos hk]
      have hall := (comps_filter_length_iff threshold nAssets ps).mp hk
      constructor
      · intro hcon; cases hcon
      · intro ⟨i, hi, hle⟩
        obtain ⟨f, hf, hgt⟩ := hall i hi
        exact absurd hgt (not_lt.mpr (hle f hf))
    · rw [if_neg hk]
      constructor
      · intro _
        rw [comps_filter_length_iff threshold nAssets ps] at hk
        push_neg at hk
        obtain ⟨i, hi, hfa⟩ := hk
        exact ⟨i, hi, hfa⟩
      · intro _; rfl
  · intro r hr
    rw [hred] at hr
    by_cases hk : ((((List.range nAssets).map (fun i =>
        (List.range ps.length).filter (fun f =>
          threshold < normalizedEntry ps f i))).filter
        (fun c => !c.isEmpty)).length = nAssets)
    · rw [if_pos hk] at hr
      cases hr
      constructor
      · rw [List.length_map]; exact hk
      · rw [List.length_map, enum_filter_isEmpty_length]; exact hk
    · rw [if_neg hk] at hr
      cases hr
  · intro quotes' hq'
    rw [getSpectralComponents, hq']
    rfl

theorem C7_spectral_threshold_witness :
    hasNan ([[some (1 : ℚ)]] : List (List (Option ℚ))) = false ∧
    (((getSpectralComponents 0 1 [[some (1 : ℚ)]] [0] [[(1 : ℚ)]]).isOk = false ↔
      ∃ i, i < 1 ∧ ∀ f, f < ([[(1 : ℚ)]] : List (List ℚ)).length →
        normalizedEntry [[(1 : ℚ)]] f i ≤ 0) ∧
    (∀ r, getSpectralComponents 0 1 [[some (1 : ℚ)]] [0] [[(1 : ℚ)]] =
        Except.ok r → r.1.length = 1 ∧ r.2.length = 1) ∧
    ∀ quotes' : List (List (Option ℚ)), hasNan quotes' = true →
      (getSpectralComponents 0 1 quotes' [0] [[(1 : ℚ)]]).isOk = false) :=
  ⟨by decide,
    C7_spectral_threshold 0 1 [[some (1 : ℚ)]] [0] [[(1 : ℚ)]]
      (by decide)
      (by
        intro i hi
        have hz : i = 0 := by omega
        subst hz
        norm_num [totalEnergy, colOf])
      (by decide)⟩

end AlgoTrading
